import Mathlib

/-!
Verification of the hand-written batch-normalization routine
(`pure_batch_norm` in the notebook "05 - Batch Normalization from scratch")
and of the PyTorch training loop (notebook "Part 3 - Training Neural
Networks"). Arrays are modelled as a shape (a list of dimension sizes)
together with a total entry function on multi-indices; real arithmetic
models the exact mathematics of the formulas.
-/

noncomputable section

/-- An n-dimensional numeric array: a shape and an entry function on
multi-indices (entries outside the shape are irrelevant junk). -/
structure NDArray where
  shape : List Nat
  entry : List Nat → ℝ

/-- A multi-index is valid for a shape when it has the same length and is
pointwise below the dimension sizes. -/
def validIdx (shape idx : List Nat) : Prop :=
  List.Forall₂ (fun i s => i < s) idx shape

/-- Two arrays agree when they have the same shape and the same entries at
every valid multi-index. -/
def NDArray.equiv (A B : NDArray) : Prop :=
  A.shape = B.shape ∧ ∀ idx, validIdx A.shape idx → A.entry idx = B.entry idx

/-- `mx.nd.mean(X, axis=0)` for a 2-D array of `n` rows: the mean of
column `j` over the batch dimension. -/
def mean2d (X : NDArray) (n j : Nat) : ℝ :=
  (∑ i ∈ Finset.range n, X.entry [i, j]) / n

/-- `mx.nd.mean((X - mean) ** 2, axis=0)`: the mini-batch variance of
column `j`. -/
def variance2d (X : NDArray) (n j : Nat) : ℝ :=
  (∑ i ∈ Finset.range n, (X.entry [i, j] - mean2d X n j) ^ 2) / n

/-- The divisor `mx.nd.sqrt(variance + eps)` of the dense branch. -/
def divisor2d (X : NDArray) (n j : Nat) (eps : ℝ) : ℝ :=
  Real.sqrt (variance2d X n j + eps)

/-- `X_hat = (X - mean) * 1.0 / mx.nd.sqrt(variance + eps)` (dense branch). -/
def xhat2d (X : NDArray) (n j : Nat) (eps : ℝ) (i : Nat) : ℝ :=
  (X.entry [i, j] - mean2d X n j) * 1.0 / divisor2d X n j eps

/-- `out = gamma * X_hat + beta` (dense branch). -/
def out2d (X : NDArray) (n : Nat) (gamma beta : Nat → ℝ) (eps : ℝ) (i j : Nat) : ℝ :=
  gamma j * xhat2d X n j eps i + beta j

/-- `mx.nd.mean(X, axis=(0, 2, 3))`: the mean of channel `c` over the
batch and both spatial dimensions. -/
def mean4d (X : NDArray) (n h w c : Nat) : ℝ :=
  (∑ i ∈ Finset.range n, ∑ y ∈ Finset.range h, ∑ x ∈ Finset.range w,
      X.entry [i, c, y, x]) / (n * h * w : ℝ)

/-- `mx.nd.mean((X - mean.reshape((1, C, 1, 1))) ** 2, axis=(0, 2, 3))`:
the mini-batch variance of channel `c`. -/
def variance4d (X : NDArray) (n h w c : Nat) : ℝ :=
  (∑ i ∈ Finset.range n, ∑ y ∈ Finset.range h, ∑ x ∈ Finset.range w,
      (X.entry [i, c, y, x] - mean4d X n h w c) ^ 2) / (n * h * w : ℝ)

/-- The divisor `mx.nd.sqrt(variance.reshape((1, C, 1, 1)) + eps)` of the
2d-conv branch. -/
def divisor4d (X : NDArray) (n h w c : Nat) (eps : ℝ) : ℝ :=
  Real.sqrt (variance4d X n h w c + eps)

/-- `X_hat = (X - mean.reshape(...)) * 1.0 / mx.nd.sqrt(variance.reshape(...) + eps)`
(2d-conv branch). -/
def xhat4d (X : NDArray) (n h w : Nat) (eps : ℝ) (i c y x : Nat) : ℝ :=
  (X.entry [i, c, y, x] - mean4d X n h w c) * 1.0 / divisor4d X n h w c eps

/-- `out = gamma.reshape((1, C, 1, 1)) * X_hat + beta.reshape((1, C, 1, 1))`
(2d-conv branch). -/
def out4d (X : NDArray) (n h w : Nat) (gamma beta : Nat → ℝ) (eps : ℝ)
    (i c y x : Nat) : ℝ :=
  gamma c * xhat4d X n h w eps i c y x + beta c

/-- The message of the `ValueError` raised on unsupported rank. -/
def rankErrMsg : String := "only supports dense or 2dconv"

/-- The default numerical-stability constant `eps = 1e-5`. -/
def epsDefault : ℝ := 1e-5

/-- `pure_batch_norm(X, gamma, beta, eps)`: dispatch on the rank of `X`;
the dense branch normalizes per feature over the batch dimension, the
2d-conv branch normalizes per channel over the batch and spatial
dimensions; any other rank raises `ValueError`. -/
def pure_batch_norm (X : NDArray) (gamma beta : Nat → ℝ) (eps : ℝ) :
    Except String NDArray :=
  match X.shape with
  | [n, c] =>
      .ok { shape := [n, c],
            entry := fun idx =>
              match idx with
              | [i, j] => out2d X n gamma beta eps i j
              | _ => 0 }
  | [n, c, h, w] =>
      .ok { shape := [n, c, h, w],
            entry := fun idx =>
              match idx with
              | [i, ch, y, x] => out4d X n h w gamma beta eps i ch y x
              | _ => 0 }
  | _ => .error rankErrMsg

/-- Reshape a (N, C, 1, 1) array to (N, C): entry (i, j) is the entry at
(i, j, 0, 0). -/
def reshape2of4 (n c : Nat) (A : NDArray) : NDArray :=
  { shape := [n, c],
    entry := fun idx =>
      match idx with
      | [i, j] => A.entry [i, j, 0, 0]
      | _ => 0 }

/-- Reshape a (N, C) array to (N, C, 1, 1): the entry at (i, j, 0, 0) is
the entry at (i, j). -/
def reshape4of2 (n c : Nat) (A : NDArray) : NDArray :=
  { shape := [n, c, 1, 1],
    entry := fun idx =>
      match idx with
      | [i, j, _, _] => A.entry [i, j]
      | _ => 0 }

/-! ### The PyTorch training loop

The training cell of "Part 3 - Training Neural Networks" runs, for each
epoch and each batch: `optimizer.zero_grad()`, `model.forward(images)`,
`loss = criterion(output, labels)`, `loss.backward()`, `optimizer.step()`.
We model the script as the trace of these framework calls. -/

/-- The five framework calls the loop makes on one batch, in program
order. -/
inductive PhaseT where
  | zeroGrad | forwardPass | lossCalc | backwardCall | optimStep
  deriving DecidableEq

/-- One framework call, tagged with the epoch and batch it belongs to. -/
structure TrainEvent where
  epoch : Nat
  batch : Nat
  phase : PhaseT
  deriving DecidableEq

/-- The body of the inner loop for batch `b` of epoch `e`: zero the
gradients, forward pass, loss computation, backward pass, optimizer
step — in that order. -/
def batchPass (e b : Nat) : List TrainEvent :=
  [⟨e, b, .zeroGrad⟩, ⟨e, b, .forwardPass⟩, ⟨e, b, .lossCalc⟩,
   ⟨e, b, .backwardCall⟩, ⟨e, b, .optimStep⟩]

/-- One epoch: the inner loop over the `nb` batches of the loader. -/
def epochPass (e nb : Nat) : List TrainEvent :=
  (List.range nb).flatMap (fun b => batchPass e b)

/-- The whole training run: the outer loop over `ne` epochs. -/
def trainingTrace (ne nb : Nat) : List TrainEvent :=
  (List.range ne).flatMap (fun e => epochPass e nb)

/-! ### Concrete inputs used by the witnesses -/

/-- The entries of the notebook example `A = [[1, 2], [3, 6], [5, 7]]`. -/
def entA : List Nat → ℝ
  | [0, 0] => 1
  | [0, 1] => 2
  | [1, 0] => 3
  | [1, 1] => 6
  | [2, 0] => 5
  | [2, 1] => 7
  | _ => 0

/-- The notebook example array `A`, of shape (3, 2). -/
def arrA : NDArray := { shape := [3, 2], entry := entA }

/-- A rank-1 array, rejected by `pure_batch_norm`. -/
def arrBad : NDArray := { shape := [3], entry := fun _ => 0 }

/-- A constant array of shape (2, 2) (every feature constant across the
batch). -/
def arrConst2 : NDArray := { shape := [2, 2], entry := fun _ => 5 }

/-- A constant array of shape (2, 1, 2, 2) (every channel constant). -/
def arrConst4 : NDArray := { shape := [2, 1, 2, 2], entry := fun _ => 5 }

/-- A 4-D array of shape (2, 3, 1, 1) with degenerate spatial dimensions. -/
def arrDeg4 : NDArray :=
  { shape := [2, 3, 1, 1],
    entry := fun idx => ((idx.foldr (fun a s => a + s) 0 : Nat) : ℝ) }

/-- A 4-D array of shape (1, 2, 3, 4). -/
def arr4 : NDArray :=
  { shape := [1, 2, 3, 4],
    entry := fun idx => ((idx.foldr (fun a s => a * 2 + s) 0 : Nat) : ℝ) }

/-- The same entries as `arrA`, written differently (each value shifted by
zero), for the statelessness witness. -/
def arrA2 : NDArray := { shape := [3, 2], entry := fun idx => entA idx + 0 }

/-- A sample scale vector. -/
def gam0 : Nat → ℝ := fun j => j + 1

/-- A sample shift vector. -/
def bet0 : Nat → ℝ := fun j => j + 2

/-! ### Helper lemmas: branch reduction -/

lemma pbn2_spec (X : NDArray) (gamma beta : Nat → ℝ) (eps : ℝ) (n c : Nat)
    (hs : X.shape = [n, c]) :
    ∃ Y, pure_batch_norm X gamma beta eps = .ok Y ∧ Y.shape = [n, c] ∧
      ∀ i j, Y.entry [i, j] = out2d X n gamma beta eps i j := by
  obtain ⟨sh, ent⟩ := X
  have hs2 : sh = [n, c] := hs
  subst hs2
  exact ⟨_, rfl, rfl, fun i j => rfl⟩

lemma pbn4_spec (X : NDArray) (gamma beta : Nat → ℝ) (eps : ℝ) (n c h w : Nat)
    (hs : X.shape = [n, c, h, w]) :
    ∃ Y, pure_batch_norm X gamma beta eps = .ok Y ∧ Y.shape = [n, c, h, w] ∧
      ∀ i ch y x, Y.entry [i, ch, y, x] = out4d X n h w gamma beta eps i ch y x := by
  obtain ⟨sh, ent⟩ := X
  have hs2 : sh = [n, c, h, w] := hs
  subst hs2
  exact ⟨_, rfl, rfl, fun i ch y x => rfl⟩

lemma out2d_formula (X : NDArray) (n : Nat) (gamma beta : Nat → ℝ) (eps : ℝ)
    (i j : Nat) :
    out2d X n gamma beta eps i j =
      gamma j * ((X.entry [i, j] - (∑ k ∈ Finset.range n, X.entry [k, j]) / n) /
        Real.sqrt ((∑ k ∈ Finset.range n,
            (X.entry [k, j] - (∑ m ∈ Finset.range n, X.entry [m, j]) / n) ^ 2) / n
          + eps)) + beta j := by
  unfold out2d xhat2d divisor2d variance2d mean2d
  norm_num

lemma out4d_formula (X : NDArray) (n h w : Nat) (gamma beta : Nat → ℝ) (eps : ℝ)
    (i c y x : Nat) :
    out4d X n h w gamma beta eps i c y x =
      gamma c * ((X.entry [i, c, y, x] -
          (∑ k ∈ Finset.range n, ∑ q ∈ Finset.range h, ∑ r ∈ Finset.range w,
            X.entry [k, c, q, r]) / (n * h * w : ℝ)) /
        Real.sqrt ((∑ k ∈ Finset.range n, ∑ q ∈ Finset.range h, ∑ r ∈ Finset.range w,
            (X.entry [k, c, q, r] -
              (∑ k2 ∈ Finset.range n, ∑ q2 ∈ Finset.range h, ∑ r2 ∈ Finset.range w,
                X.entry [k2, c, q2, r2]) / (n * h * w : ℝ)) ^ 2) / (n * h * w : ℝ)
          + eps)) + beta c := by
  unfold out4d xhat4d divisor4d variance4d mean4d
  norm_num

/-! ### Helper lemmas: positivity of the divisor -/

lemma variance2d_nonneg (X : NDArray) (n j : Nat) : 0 ≤ variance2d X n j :=
  div_nonneg (Finset.sum_nonneg fun _ _ => sq_nonneg _) (Nat.cast_nonneg n)

lemma variance4d_nonneg (X : NDArray) (n h w c : Nat) : 0 ≤ variance4d X n h w c := by
  unfold variance4d
  have hden : (0:ℝ) ≤ (n * h * w : ℝ) := by positivity
  refine div_nonneg ?_ hden
  refine Finset.sum_nonneg fun _ _ => ?_
  refine Finset.sum_nonneg fun _ _ => ?_
  exact Finset.sum_nonneg fun _ _ => sq_nonneg _

lemma divisor2d_pos (X : NDArray) (n j : Nat) (eps : ℝ) (heps : 0 < eps) :
    0 < divisor2d X n j eps :=
  Real.sqrt_pos.mpr (add_pos_of_nonneg_of_pos (variance2d_nonneg X n j) heps)

lemma divisor4d_pos (X : NDArray) (n h w c : Nat) (eps : ℝ) (heps : 0 < eps) :
    0 < divisor4d X n h w c eps :=
  Real.sqrt_pos.mpr (add_pos_of_nonneg_of_pos (variance4d_nonneg X n h w c) heps)

/-! ### Helper lemmas: standardization identities (dense branch) -/

lemma sum_centered2d (X : NDArray) (n j : Nat) (hn : 0 < n) :
    ∑ i ∈ Finset.range n, (X.entry [i, j] - mean2d X n j) = 0 := by
  unfold mean2d
  rw [Finset.sum_sub_distrib, Finset.sum_const, Finset.card_range, nsmul_eq_mul,
    mul_div_cancel₀]
  · ring
  · exact_mod_cast hn.ne'

lemma sum_xhat2d_zero (X : NDArray) (n j : Nat) (eps : ℝ) (hn : 0 < n) :
    ∑ i ∈ Finset.range n, xhat2d X n j eps i = 0 := by
  unfold xhat2d
  have h1 : ∀ i, (X.entry [i, j] - mean2d X n j) * 1.0 / divisor2d X n j eps =
      (X.entry [i, j] - mean2d X n j) / divisor2d X n j eps := fun i => by norm_num
  simp only [h1]
  rw [← Finset.sum_div, sum_centered2d X n j hn, zero_div]

lemma mean_out2d_eq_beta (X : NDArray) (n : Nat) (gamma beta : Nat → ℝ) (eps : ℝ)
    (j : Nat) (hn : 0 < n) :
    (∑ i ∈ Finset.range n, out2d X n gamma beta eps i j) / n = beta j := by
  unfold out2d
  rw [Finset.sum_add_distrib, ← Finset.mul_sum, sum_xhat2d_zero X n j eps hn,
    mul_zero, zero_add, Finset.sum_const, Finset.card_range, nsmul_eq_mul,
    mul_div_cancel_left₀]
  exact_mod_cast hn.ne'

lemma variance_xhat2d_one (X : NDArray) (n j : Nat) (hn : 0 < n)
    (hv : variance2d X n j ≠ 0) :
    (∑ i ∈ Finset.range n,
      (xhat2d X n j 0 i - (∑ k ∈ Finset.range n, xhat2d X n j 0 k) / n) ^ 2) / n
      = 1 := by
  rw [sum_xhat2d_zero X n j 0 hn, zero_div]
  simp only [sub_zero]
  have hv0 : 0 ≤ variance2d X n j := variance2d_nonneg X n j
  have h10 : (1.0 : ℝ) = 1 := by norm_num
  have hsq : divisor2d X n j 0 ^ 2 = variance2d X n j := by
    unfold divisor2d
    rw [add_zero, Real.sq_sqrt hv0]
  have hterm : ∀ i, xhat2d X n j 0 i ^ 2 =
      (X.entry [i, j] - mean2d X n j) ^ 2 / variance2d X n j := by
    intro i
    unfold xhat2d
    rw [h10, mul_one, div_pow, hsq]
  simp only [hterm]
  rw [← Finset.sum_div]
  have hsum : ∑ i ∈ Finset.range n, (X.entry [i, j] - mean2d X n j) ^ 2 =
      n * variance2d X n j := by
    unfold variance2d
    rw [mul_div_cancel₀]
    exact_mod_cast hn.ne'
  rw [hsum, mul_div_assoc, div_self hv, mul_one, div_self]
  exact_mod_cast hn.ne'

/-! ### Helper lemmas: constant features -/

lemma mean2d_const (X : NDArray) (n j : Nat) (K : ℝ) (hn : 0 < n)
    (hc : ∀ k, k < n → X.entry [k, j] = K) : mean2d X n j = K := by
  unfold mean2d
  rw [Finset.sum_congr rfl (fun k hk => hc k (Finset.mem_range.mp hk)),
    Finset.sum_const, Finset.card_range, nsmul_eq_mul, mul_div_cancel_left₀]
  exact_mod_cast hn.ne'

lemma out2d_const (X : NDArray) (n : Nat) (gamma beta : Nat → ℝ) (eps : ℝ)
    (i j : Nat) (K : ℝ) (hi : i < n)
    (hc : ∀ k, k < n → X.entry [k, j] = K) :
    out2d X n gamma beta eps i j = beta j := by
  have h0 : 0 < n := lt_of_le_of_lt (Nat.zero_le i) hi
  unfold out2d xhat2d
  rw [mean2d_const X n j K h0 hc, hc i hi, sub_self, zero_mul, zero_div,
    mul_zero, zero_add]

lemma mean4d_const (X : NDArray) (n h w c : Nat) (K : ℝ)
    (hn : 0 < n) (hh : 0 < h) (hw : 0 < w)
    (hc : ∀ k y x, k < n → y < h → x < w → X.entry [k, c, y, x] = K) :
    mean4d X n h w c = K := by
  have h1 : ∀ k y, k < n → y < h →
      ∑ x ∈ Finset.range w, X.entry [k, c, y, x] = w * K := by
    intro k y hk hy
    rw [Finset.sum_congr rfl (fun x hx => hc k y x hk hy (Finset.mem_range.mp hx)),
      Finset.sum_const, Finset.card_range, nsmul_eq_mul]
  have h2 : ∀ k, k < n →
      ∑ y ∈ Finset.range h, ∑ x ∈ Finset.range w, X.entry [k, c, y, x]
        = h * (w * K) := by
    intro k hk
    rw [Finset.sum_congr rfl (fun y hy => h1 k y hk (Finset.mem_range.mp hy)),
      Finset.sum_const, Finset.card_range, nsmul_eq_mul]
  unfold mean4d
  rw [Finset.sum_congr rfl (fun k hk => h2 k (Finset.mem_range.mp hk)),
    Finset.sum_const, Finset.card_range, nsmul_eq_mul]
  have hn2 : (n : ℝ) ≠ 0 := by exact_mod_cast hn.ne'
  have hh2 : (h : ℝ) ≠ 0 := by exact_mod_cast hh.ne'
  have hw2 : (w : ℝ) ≠ 0 := by exact_mod_cast hw.ne'
  field_simp
  ring

lemma out4d_const (X : NDArray) (n h w : Nat) (gamma beta : Nat → ℝ) (eps : ℝ)
    (i c y x : Nat) (K : ℝ) (hi : i < n) (hy : y < h) (hx : x < w)
    (hc : ∀ k q r, k < n → q < h → r < w → X.entry [k, c, q, r] = K) :
    out4d X n h w gamma beta eps i c y x = beta c := by
  have h0n : 0 < n := lt_of_le_of_lt (Nat.zero_le i) hi
  have h0h : 0 < h := lt_of_le_of_lt (Nat.zero_le y) hy
  have h0w : 0 < w := lt_of_le_of_lt (Nat.zero_le x) hx
  unfold out4d xhat4d
  rw [mean4d_const X n h w c K h0n h0h h0w hc, hc i y x hi hy hx, sub_self,
    zero_mul, zero_div, mul_zero, zero_add]

/-! ### Helper lemmas: collapse of degenerate spatial dimensions -/

lemma mean4d_deg (X : NDArray) (n c j : Nat) :
    mean4d X n 1 1 j = mean2d (reshape2of4 n c X) n j := by
  unfold mean4d mean2d reshape2of4
  simp [Finset.sum_range_one]

lemma variance4d_deg (X : NDArray) (n c j : Nat) :
    variance4d X n 1 1 j = variance2d (reshape2of4 n c X) n j := by
  unfold variance4d variance2d
  rw [mean4d_deg X n c j]
  simp [Finset.sum_range_one, reshape2of4]

lemma out4d_deg (X : NDArray) (n c : Nat) (gamma beta : Nat → ℝ) (eps : ℝ)
    (i j : Nat) :
    out4d X n 1 1 gamma beta eps i j 0 0 =
      out2d (reshape2of4 n c X) n gamma beta eps i j := by
  unfold out4d out2d xhat4d xhat2d divisor4d divisor2d
  rw [mean4d_deg X n c j, variance4d_deg X n c j]
  norm_num [reshape2of4]

/-! ### Helper lemmas: rank dispatch -/

lemma pbn_err_of_bad (X : NDArray) (gamma beta : Nat → ℝ) (eps : ℝ)
    (h2 : X.shape.length ≠ 2) (h4 : X.shape.length ≠ 4) :
    pure_batch_norm X gamma beta eps = .error rankErrMsg := by
  obtain ⟨sh, ent⟩ := X
  rcases sh with _ | ⟨a, _ | ⟨b, _ | ⟨c2, _ | ⟨d, _ | ⟨e2, rest⟩⟩⟩⟩⟩
  · rfl
  · rfl
  · exact absurd rfl h2
  · rfl
  · exact absurd rfl h4
  · rfl

lemma pbn_ok_shape (X : NDArray) (gamma beta : Nat → ℝ) (eps : ℝ)
    (h : X.shape.length = 2 ∨ X.shape.length = 4) :
    ∃ Y, pure_batch_norm X gamma beta eps = .ok Y ∧ Y.shape = X.shape := by
  obtain ⟨sh, ent⟩ := X
  rcases sh with _ | ⟨a, _ | ⟨b, _ | ⟨c2, _ | ⟨d, _ | ⟨e2, rest⟩⟩⟩⟩⟩
  · simp at h
  · simp at h
  · exact ⟨_, rfl, rfl⟩
  · simp at h
  · exact ⟨_, rfl, rfl⟩
  · simp at h

lemma pbn_congr (X1 X2 : NDArray) (gamma beta : Nat → ℝ) (eps : ℝ)
    (hsh : X1.shape = X2.shape) (hent : ∀ idx, X1.entry idx = X2.entry idx) :
    pure_batch_norm X1 gamma beta eps = pure_batch_norm X2 gamma beta eps := by
  obtain ⟨s1, e1⟩ := X1
  obtain ⟨s2, e2⟩ := X2
  have hs : s1 = s2 := hsh
  have he : e1 = e2 := funext hent
  subst hs
  subst he
  rfl

/-! ### Helper lemmas: the training trace -/

lemma flatMap_range_eq_single {β : Type} (n i0 : Nat) (h : i0 < n) (f : Nat → List β)
    (hf : ∀ i, i < n → i ≠ i0 → f i = []) : (List.range n).flatMap f = f i0 := by
  induction n with
  | zero => omega
  | succ m ih =>
    rw [List.range_succ, List.flatMap_append]
    by_cases hm : i0 = m
    · have hpre : (List.range m).flatMap f = [] := by
        apply List.flatMap_eq_nil_iff.mpr
        intro x hx
        have hxm := List.mem_range.mp hx
        exact hf x (Nat.lt_succ_of_lt hxm) (by omega)
      rw [hpre, hm]
      simp
    · have hm2 : f m = [] := hf m (Nat.lt_succ_self m) (fun hcon => hm hcon.symm)
      have hlt : i0 < m := by omega
      rw [ih hlt (fun i hi hne => hf i (Nat.lt_succ_of_lt hi) hne)]
      simp [hm2]

lemma filter_batchPass_self (e b : Nat) :
    (batchPass e b).filter (fun ev => ev.epoch == e && ev.batch == b) = batchPass e b := by
  simp [batchPass, List.filter]

lemma filter_batchPass_ne (e b eA bA : Nat) (h : ¬(eA = e ∧ bA = b)) :
    (batchPass eA bA).filter (fun ev => ev.epoch == e && ev.batch == b) = [] := by
  have hfalse : (eA == e && bA == b) = false := by
    rw [Bool.and_eq_false_iff]
    rcases not_and_or.mp h with h1 | h1
    · exact Or.inl (beq_eq_false_iff_ne.mpr h1)
    · exact Or.inr (beq_eq_false_iff_ne.mpr h1)
  simp [batchPass, List.filter, hfalse]

lemma trainingTrace_filter (ne nb e b : Nat) (he : e < ne) (hb : b < nb) :
    (trainingTrace ne nb).filter (fun ev => ev.epoch == e && ev.batch == b)
      = batchPass e b := by
  unfold trainingTrace epochPass
  rw [List.filter_flatMap]
  have inner : ∀ eA, ((List.range nb).flatMap (fun bA => batchPass eA bA)).filter
      (fun ev => ev.epoch == e && ev.batch == b) =
      if eA = e then batchPass e b else [] := by
    intro eA
    rw [List.filter_flatMap]
    by_cases heA : eA = e
    · rw [if_pos heA, heA]
      rw [flatMap_range_eq_single nb b hb _
        (fun i hi hne => filter_batchPass_ne e b e i (by tauto))]
      exact filter_batchPass_self e b
    · rw [if_neg heA]
      apply List.flatMap_eq_nil_iff.mpr
      intro x hx
      exact filter_batchPass_ne e b eA x (by tauto)
  simp only [inner]
  rw [flatMap_range_eq_single ne e he _ (fun i hi hne => if_neg hne)]
  exact if_pos rfl

/-! ### Claim theorems -/

/-- C1: for every 2-D input X (batch N by features C) and per-feature
vectors gamma and beta, `pure_batch_norm` returns the matrix whose entry
(i, j) is gamma j * (X i j - mean_j) / sqrt (var_j + eps) + beta j, where
mean_j is the mean of column j over the batch and var_j is the mean of the
squared deviations. -/
theorem claim_C1_dense_entry (X : NDArray) (gamma beta : Nat → ℝ) (eps : ℝ)
    (n c i j : Nat) (hs : X.shape = [n, c]) (hi : i < n) (hj : j < c) :
    ∃ Y, pure_batch_norm X gamma beta eps = .ok Y ∧
      Y.entry [i, j] =
        gamma j * ((X.entry [i, j] - (∑ k ∈ Finset.range n, X.entry [k, j]) / n) /
          Real.sqrt ((∑ k ∈ Finset.range n,
              (X.entry [k, j] - (∑ m ∈ Finset.range n, X.entry [m, j]) / n) ^ 2) / n
            + eps)) + beta j := by
  obtain ⟨Y, hok, _, hent⟩ := pbn2_spec X gamma beta eps n c hs
  exact ⟨Y, hok, by rw [hent i j, out2d_formula]⟩

/-- C2: for every 4-D input X of shape (N, C, H, W) and per-channel gamma
and beta, `pure_batch_norm` returns the array whose entry (n, c, h, w) is
gamma c * (X n c h w - mean_c) / sqrt (var_c + eps) + beta c, with mean
and variance of channel c taken over axes 0, 2, 3 and broadcast. -/
theorem claim_C2_conv_entry (X : NDArray) (gamma beta : Nat → ℝ) (eps : ℝ)
    (n c h w i ch y x : Nat) (hs : X.shape = [n, c, h, w])
    (hi : i < n) (hch : ch < c) (hy : y < h) (hx : x < w) :
    ∃ Y, pure_batch_norm X gamma beta eps = .ok Y ∧
      Y.entry [i, ch, y, x] =
        gamma ch * ((X.entry [i, ch, y, x] -
            (∑ k ∈ Finset.range n, ∑ q ∈ Finset.range h, ∑ r ∈ Finset.range w,
              X.entry [k, ch, q, r]) / (n * h * w : ℝ)) /
          Real.sqrt ((∑ k ∈ Finset.range n, ∑ q ∈ Finset.range h, ∑ r ∈ Finset.range w,
              (X.entry [k, ch, q, r] -
                (∑ k2 ∈ Finset.range n, ∑ q2 ∈ Finset.range h, ∑ r2 ∈ Finset.range w,
                  X.entry [k2, ch, q2, r2]) / (n * h * w : ℝ)) ^ 2) / (n * h * w : ℝ)
            + eps)) + beta ch := by
  obtain ⟨Y, hok, _, hent⟩ := pbn4_spec X gamma beta eps n c h w hs
  exact ⟨Y, hok, by rw [hent i ch y x, out4d_formula]⟩

/-- C3: `pure_batch_norm` raises `ValueError` exactly when the rank of X
is neither 2 nor 4, and returns a result without raising for every input
of rank 2 or 4. -/
theorem claim_C3_rank_check (X : NDArray) (gamma beta : Nat → ℝ) (eps : ℝ) :
    (pure_batch_norm X gamma beta eps = .error rankErrMsg ↔
      ¬(X.shape.length = 2 ∨ X.shape.length = 4)) ∧
    ((∃ Y, pure_batch_norm X gamma beta eps = .ok Y) ↔
      (X.shape.length = 2 ∨ X.shape.length = 4)) := by
  constructor
  · constructor
    · intro herr hgood
      obtain ⟨Y, hok, _⟩ := pbn_ok_shape X gamma beta eps hgood
      rw [hok] at herr
      exact Except.noConfusion herr
    · intro hbad
      exact pbn_err_of_bad X gamma beta eps
        (fun h => hbad (Or.inl h)) (fun h => hbad (Or.inr h))
  · constructor
    · rintro ⟨Y, hok⟩
      by_contra hbad
      rw [pbn_err_of_bad X gamma beta eps
        (fun h => hbad (Or.inl h)) (fun h => hbad (Or.inr h))] at hok
      exact Except.noConfusion hok
    · intro hgood
      obtain ⟨Y, hok, _⟩ := pbn_ok_shape X gamma beta eps hgood
      exact ⟨Y, hok⟩

/-- C4: for every eps > 0 the divisor sqrt (variance + eps) is strictly
positive in both branches, because the variance, a mean of squares, is
non-negative; the default eps is itself positive. -/
theorem claim_C4_divisor_pos (X : NDArray) (n c h w j ch : Nat) (eps : ℝ)
    (heps : 0 < eps) :
    0 ≤ variance2d X n j ∧ 0 ≤ variance4d X n h w ch ∧
    0 < divisor2d X n j eps ∧ 0 < divisor4d X n h w ch eps ∧
    0 < epsDefault :=
  ⟨variance2d_nonneg X n j, variance4d_nonneg X n h w ch,
    divisor2d_pos X n j eps heps, divisor4d_pos X n h w ch eps heps,
    by norm_num [epsDefault]⟩

/-- C5: the dense branch standardizes within the mini-batch: for every
2-D input the normalized values X_hat have mean 0 over the batch in each
feature and the output has batch mean beta j in feature j; and with
eps = 0 and nonzero variance X_hat has variance exactly 1. -/
theorem claim_C5_standardize (X : NDArray) (gamma beta : Nat → ℝ) (eps : ℝ)
    (n c j : Nat) (hs : X.shape = [n, c]) (hn : 0 < n) (hj : j < c) :
    (∑ i ∈ Finset.range n, xhat2d X n j eps i) / n = 0 ∧
    (∃ Y, pure_batch_norm X gamma beta eps = .ok Y ∧
      (∑ i ∈ Finset.range n, Y.entry [i, j]) / n = beta j) ∧
    (variance2d X n j ≠ 0 →
      (∑ i ∈ Finset.range n,
        (xhat2d X n j 0 i - (∑ k ∈ Finset.range n, xhat2d X n j 0 k) / n) ^ 2) / n
      = 1) := by
  refine ⟨by rw [sum_xhat2d_zero X n j eps hn, zero_div], ?_,
    fun hv => variance_xhat2d_one X n j hn hv⟩
  obtain ⟨Y, hok, _, hent⟩ := pbn2_spec X gamma beta eps n c hs
  refine ⟨Y, hok, ?_⟩
  rw [Finset.sum_congr rfl (fun i _ => hent i j)]
  exact mean_out2d_eq_beta X n gamma beta eps j hn

/-- C6: `pure_batch_norm` is a stateless transform: its result depends
only on the values of its arguments, so two calls with (extensionally)
equal arguments return equal results. -/
theorem claim_C6_stateless (X1 X2 : NDArray) (gamma beta : Nat → ℝ) (eps : ℝ)
    (hsh : X1.shape = X2.shape) (hent : ∀ idx, X1.entry idx = X2.entry idx) :
    pure_batch_norm X1 gamma beta eps = pure_batch_norm X2 gamma beta eps :=
  pbn_congr X1 X2 gamma beta eps hsh hent

/-- C7: the training script performs, for each batch of each epoch, the
fixed call order zero_grad, forward, loss, backward, optimizer step: the
events of batch (e, b) in the whole trace are exactly that sequence (so
the optimizer step never precedes the batch loss or backward pass), and
the sequence occurs as an in-order subsequence of the trace. -/
theorem claim_C7_training_order (ne nb e b : Nat) (he : e < ne) (hb : b < nb) :
    (trainingTrace ne nb).filter (fun ev => ev.epoch == e && ev.batch == b)
        = batchPass e b ∧
    (batchPass e b).map TrainEvent.phase =
        [.zeroGrad, .forwardPass, .lossCalc, .backwardCall, .optimStep] ∧
    List.Sublist (batchPass e b) (trainingTrace ne nb) := by
  refine ⟨trainingTrace_filter ne nb e b he hb, rfl, ?_⟩
  have hsub := List.filter_sublist
    (p := fun ev => ev.epoch == e && ev.batch == b) (l := trainingTrace ne nb)
  rwa [trainingTrace_filter ne nb e b he hb] at hsub

lemma validIdx4 (n c h w : Nat) (idx : List Nat) (hv : validIdx [n, c, h, w] idx) :
    ∃ i0 c0 y0 x0, idx = [i0, c0, y0, x0] ∧ i0 < n ∧ c0 < c ∧ y0 < h ∧ x0 < w := by
  rcases idx with _ | ⟨i0, _ | ⟨c0, _ | ⟨y0, _ | ⟨x0, _ | ⟨z, rest⟩⟩⟩⟩⟩ <;>
    simp [validIdx, List.forall₂_cons] at hv
  exact ⟨i0, c0, y0, x0, rfl, hv.1, hv.2.1, hv.2.2.1, hv.2.2.2⟩

/-- C8: the two branches agree on degenerate spatial dimensions: for a
4-D input of shape (N, C, 1, 1), the 4-D result equals the 2-D result on
the same data reshaped to (N, C), reshaped back to (N, C, 1, 1). -/
theorem claim_C8_branches_agree (X : NDArray) (gamma beta : Nat → ℝ) (eps : ℝ)
    (n c : Nat) (hs : X.shape = [n, c, 1, 1]) :
    ∃ Y4 Y2, pure_batch_norm X gamma beta eps = .ok Y4 ∧
      pure_batch_norm (reshape2of4 n c X) gamma beta eps = .ok Y2 ∧
      NDArray.equiv Y4 (reshape4of2 n c Y2) := by
  obtain ⟨Y4, hok4, hsh4, hent4⟩ := pbn4_spec X gamma beta eps n c 1 1 hs
  obtain ⟨Y2, hok2, hsh2, hent2⟩ :=
    pbn2_spec (reshape2of4 n c X) gamma beta eps n c rfl
  refine ⟨Y4, Y2, hok4, hok2, ?_, ?_⟩
  · rw [hsh4]
    rfl
  · intro idx hvalid
    rw [hsh4] at hvalid
    obtain ⟨i0, c0, y0, x0, rfl, hi, hc2, hy, hx⟩ := validIdx4 n c 1 1 idx hvalid
    have hy0 : y0 = 0 := by omega
    have hx0 : x0 = 0 := by omega
    subst hy0
    subst hx0
    rw [hent4 i0 c0 0 0, out4d_deg X n c gamma beta eps i0 c0]
    exact (hent2 i0 c0).symm

/-- C9: for every valid input (rank 2 or 4) the output of
`pure_batch_norm` has exactly the same shape as the input. -/
theorem claim_C9_shape_preserved (X : NDArray) (gamma beta : Nat → ℝ) (eps : ℝ)
    (h : X.shape.length = 2 ∨ X.shape.length = 4) :
    ∃ Y, pure_batch_norm X gamma beta eps = .ok Y ∧ Y.shape = X.shape :=
  pbn_ok_shape X gamma beta eps h

/-- C10: if a feature (2-D) or channel (4-D) is the same constant across
the batch (and spatial) dimensions, the corresponding output positions
are exactly beta of that feature or channel, independent of gamma and of
the constant. -/
theorem claim_C10_const_feature (X2 X4 : NDArray) (gamma beta : Nat → ℝ)
    (eps K2 K4 : ℝ) (n c i j n4 c4 h4 w4 i4 ch4 y4 x4 : Nat)
    (heps : 0 < eps)
    (hs2 : X2.shape = [n, c]) (hi : i < n) (hj : j < c)
    (hc2 : ∀ k, k < n → X2.entry [k, j] = K2)
    (hs4 : X4.shape = [n4, c4, h4, w4]) (hi4 : i4 < n4) (hch4 : ch4 < c4)
    (hy4 : y4 < h4) (hx4 : x4 < w4)
    (hc4 : ∀ k q r, k < n4 → q < h4 → r < w4 → X4.entry [k, ch4, q, r] = K4) :
    (∃ Y, pure_batch_norm X2 gamma beta eps = .ok Y ∧ Y.entry [i, j] = beta j) ∧
    (∃ Y, pure_batch_norm X4 gamma beta eps = .ok Y ∧
      Y.entry [i4, ch4, y4, x4] = beta ch4) := by
  constructor
  · obtain ⟨Y, hok, _, hent⟩ := pbn2_spec X2 gamma beta eps n c hs2
    exact ⟨Y, hok, by
      rw [hent i j, out2d_const X2 n gamma beta eps i j K2 hi hc2]⟩
  · obtain ⟨Y, hok, _, hent⟩ := pbn4_spec X4 gamma beta eps n4 c4 h4 w4 hs4
    exact ⟨Y, hok, by
      rw [hent i4 ch4 y4 x4,
        out4d_const X4 n4 h4 w4 gamma beta eps i4 ch4 y4 x4 K4 hi4 hy4 hx4 hc4]⟩

/-! ### Witnesses -/

lemma variance2d_arrA_val : variance2d arrA 3 0 = 8 / 3 := by
  norm_num [variance2d, mean2d, arrA, entA, Finset.sum_range_succ,
    Finset.sum_range_zero]

theorem claim_C1_witness :
    arrA.shape = [3, 2] ∧ 0 < 3 ∧ 1 < 2 ∧
    (∃ Y, pure_batch_norm arrA gam0 bet0 epsDefault = .ok Y ∧
      Y.entry [0, 1] =
        gam0 1 * ((arrA.entry [0, 1] -
            (∑ k ∈ Finset.range 3, arrA.entry [k, 1]) / ((3:ℕ):ℝ)) /
          Real.sqrt ((∑ k ∈ Finset.range 3,
              (arrA.entry [k, 1] -
                (∑ m ∈ Finset.range 3, arrA.entry [m, 1]) / ((3:ℕ):ℝ)) ^ 2) / ((3:ℕ):ℝ)
            + epsDefault)) + bet0 1) :=
  ⟨rfl, by decide, by decide,
    claim_C1_dense_entry arrA gam0 bet0 epsDefault 3 2 0 1 rfl (by decide) (by decide)⟩

theorem claim_C2_witness :
    arr4.shape = [1, 2, 3, 4] ∧ 0 < 1 ∧ 1 < 2 ∧ 2 < 3 ∧ 3 < 4 ∧
    (∃ Y, pure_batch_norm arr4 gam0 bet0 epsDefault = .ok Y ∧
      Y.entry [0, 1, 2, 3] =
        gam0 1 * ((arr4.entry [0, 1, 2, 3] -
            (∑ k ∈ Finset.range 1, ∑ q ∈ Finset.range 3, ∑ r ∈ Finset.range 4,
              arr4.entry [k, 1, q, r]) / (((1:ℕ):ℝ) * ((3:ℕ):ℝ) * ((4:ℕ):ℝ))) /
          Real.sqrt ((∑ k ∈ Finset.range 1, ∑ q ∈ Finset.range 3, ∑ r ∈ Finset.range 4,
              (arr4.entry [k, 1, q, r] -
                (∑ k2 ∈ Finset.range 1, ∑ q2 ∈ Finset.range 3, ∑ r2 ∈ Finset.range 4,
                  arr4.entry [k2, 1, q2, r2]) / (((1:ℕ):ℝ) * ((3:ℕ):ℝ) * ((4:ℕ):ℝ))) ^ 2)
              / (((1:ℕ):ℝ) * ((3:ℕ):ℝ) * ((4:ℕ):ℝ))
            + epsDefault)) + bet0 1) :=
  ⟨rfl, by decide, by decide, by decide, by decide,
    claim_C2_conv_entry arr4 gam0 bet0 epsDefault 1 2 3 4 0 1 2 3 rfl
      (by decide) (by decide) (by decide) (by decide)⟩

theorem claim_C3_witness :
    pure_batch_norm arrBad gam0 bet0 epsDefault = .error rankErrMsg ∧
    ∃ Y, pure_batch_norm arrA gam0 bet0 epsDefault = .ok Y :=
  ⟨(claim_C3_rank_check arrBad gam0 bet0 epsDefault).1.mpr (by decide),
   (claim_C3_rank_check arrA gam0 bet0 epsDefault).2.mpr (by decide)⟩

theorem claim_C4_witness :
    0 < epsDefault ∧
    (0 ≤ variance2d arrA 3 0 ∧ 0 ≤ variance4d arrA 3 1 1 0 ∧
     0 < divisor2d arrA 3 0 epsDefault ∧ 0 < divisor4d arrA 3 1 1 0 epsDefault ∧
     0 < epsDefault) :=
  ⟨by norm_num [epsDefault],
   claim_C4_divisor_pos arrA 3 2 1 1 0 0 epsDefault (by norm_num [epsDefault])⟩

theorem claim_C5_witness :
    arrA.shape = [3, 2] ∧ 0 < 3 ∧ 0 < 2 ∧ variance2d arrA 3 0 ≠ 0 ∧
    ((∑ i ∈ Finset.range 3, xhat2d arrA 3 0 epsDefault i) / ((3:ℕ):ℝ) = 0 ∧
     (∃ Y, pure_batch_norm arrA gam0 bet0 epsDefault = .ok Y ∧
       (∑ i ∈ Finset.range 3, Y.entry [i, 0]) / ((3:ℕ):ℝ) = bet0 0) ∧
     (variance2d arrA 3 0 ≠ 0 →
      (∑ i ∈ Finset.range 3,
        (xhat2d arrA 3 0 0 i -
          (∑ k ∈ Finset.range 3, xhat2d arrA 3 0 0 k) / ((3:ℕ):ℝ)) ^ 2) / ((3:ℕ):ℝ)
       = 1)) ∧
    (∑ i ∈ Finset.range 3,
        (xhat2d arrA 3 0 0 i -
          (∑ k ∈ Finset.range 3, xhat2d arrA 3 0 0 k) / ((3:ℕ):ℝ)) ^ 2) / ((3:ℕ):ℝ)
      = 1 :=
  ⟨rfl, by decide, by decide, by rw [variance2d_arrA_val]; norm_num,
   claim_C5_standardize arrA gam0 bet0 epsDefault 3 2 0 rfl (by decide) (by decide),
   (claim_C5_standardize arrA gam0 bet0 epsDefault 3 2 0 rfl (by decide)
       (by decide)).2.2
     (by rw [variance2d_arrA_val]; norm_num)⟩

theorem claim_C6_witness :
    arrA.shape = arrA2.shape ∧
    pure_batch_norm arrA gam0 bet0 epsDefault =
      pure_batch_norm arrA2 gam0 bet0 epsDefault :=
  ⟨rfl, claim_C6_stateless arrA arrA2 gam0 bet0 epsDefault rfl
    (fun idx => (add_zero (entA idx)).symm)⟩

theorem claim_C7_witness :
    1 < 2 ∧ 2 < 3 ∧
    ((trainingTrace 2 3).filter (fun ev => ev.epoch == 1 && ev.batch == 2)
        = batchPass 1 2 ∧
     (batchPass 1 2).map TrainEvent.phase =
        [.zeroGrad, .forwardPass, .lossCalc, .backwardCall, .optimStep] ∧
     List.Sublist (batchPass 1 2) (trainingTrace 2 3)) :=
  ⟨by decide, by decide, claim_C7_training_order 2 3 1 2 (by decide) (by decide)⟩

theorem claim_C8_witness :
    arrDeg4.shape = [2, 3, 1, 1] ∧
    (∃ Y4 Y2, pure_batch_norm arrDeg4 gam0 bet0 epsDefault = .ok Y4 ∧
      pure_batch_norm (reshape2of4 2 3 arrDeg4) gam0 bet0 epsDefault = .ok Y2 ∧
      NDArray.equiv Y4 (reshape4of2 2 3 Y2)) :=
  ⟨rfl, claim_C8_branches_agree arrDeg4 gam0 bet0 epsDefault 2 3 rfl⟩

theorem claim_C9_witness :
    (arr4.shape.length = 2 ∨ arr4.shape.length = 4) ∧
    (∃ Y, pure_batch_norm arr4 gam0 bet0 epsDefault = .ok Y ∧
      Y.shape = arr4.shape) :=
  ⟨Or.inr (by decide),
   claim_C9_shape_preserved arr4 gam0 bet0 epsDefault (Or.inr (by decide))⟩

theorem claim_C10_witness :
    0 < epsDefault ∧ arrConst2.shape = [2, 2] ∧ arrConst4.shape = [2, 1, 2, 2] ∧
    ((∃ Y, pure_batch_norm arrConst2 gam0 bet0 epsDefault = .ok Y ∧
        Y.entry [0, 1] = bet0 1) ∧
     (∃ Y, pure_batch_norm arrConst4 gam0 bet0 epsDefault = .ok Y ∧
        Y.entry [1, 0, 0, 1] = bet0 0)) :=
  ⟨by norm_num [epsDefault], rfl, rfl,
   claim_C10_const_feature arrConst2 arrConst4 gam0 bet0 epsDefault 5 5
     2 2 0 1 2 1 2 2 1 0 0 1
     (by norm_num [epsDefault]) rfl (by decide) (by decide) (fun k hk => rfl)
     rfl (by decide) (by decide) (by decide) (by decide)
     (fun k q r hk hq hr => rfl)⟩
